import Mathlib

/-!
Shallow embedding of the MyGroupCache (geecache-style) distributed cache:
the byte-accounted LRU (geecache/lru/lru.go), the consistent-hash ring
(consistenthash), the singleflight coalescer, the Group read-through flow
and the HTTP pool (geecache/http.go), together with theorems settling the
frozen claims about the natural-language specification.

Go maps mirrored by lists are modelled as association lists; the `container/list`
recency list is modelled as a `List` whose head is the Go list's front (the most
recently used end, which the source comments call the queue tail).  The
`OnEvicted` callback is modelled by a trace field recording each invocation.
-/

namespace lru

/-- The Go `Value` interface: anything exposing a byte length `Len()`. -/
class Value (α : Type) where
  len : α → Nat

/-- Embedding of `lru.Cache`: `maxBytes`/`nbytes` are Go `int64` (modelled as `Int`);
`ll` is the doubly linked list with the front at the head (most recently used);
the Go `cache map[string]*list.Element` is the key-indexed view of `ll`.
`evicted` records the `OnEvicted` callback invocations in order. -/
structure Cache (α : Type) [Value α] where
  maxBytes : Int
  nbytes : Int
  ll : List (String × α)
  evicted : List (String × α)

variable {α : Type} [Value α]

/-- Bytes accounted to one entry: `len(key) + value.Len()`. -/
def entryBytes (e : String × α) : Int :=
  (e.1.length : Int) + (Value.len e.2 : Int)

/-- Sum of `len(key) + value.Len()` over a list of entries. -/
def sumBytes (l : List (String × α)) : Int :=
  (l.map entryBytes).sum

/-- Embedding of `lru.New`. -/
def Cache.new (maxBytes : Int) : Cache α :=
  { maxBytes := maxBytes, nbytes := 0, ll := [], evicted := [] }

/-- Embedding of `Cache.Get`: on a hit, move the entry to the front
(`c.ll.MoveToFront(ele)`) and return its value. -/
def Cache.get (c : Cache α) (key : String) : Option α × Cache α :=
  match c.ll.find? (fun e => e.1 == key) with
  | some e => (some e.2, { c with ll := e :: c.ll.eraseP (fun e2 => e2.1 == key) })
  | none => (none, c)

/-- Embedding of `Cache.RemoveOldest`: drop the back entry (`c.ll.Back()`),
delete its mapping, subtract its bytes, and invoke `OnEvicted`. -/
def Cache.removeOldest (c : Cache α) : Cache α :=
  match c.ll.getLast? with
  | some e =>
    { c with ll := c.ll.dropLast
           , nbytes := c.nbytes - entryBytes e
           , evicted := c.evicted ++ [e] }
  | none => c

/-- The mutation part of `Cache.Add`, before the eviction loop: update in place
and move to front when the key exists, otherwise push a fresh entry to the front. -/
def Cache.addRaw (c : Cache α) (key : String) (value : α) : Cache α :=
  match c.ll.find? (fun e => e.1 == key) with
  | some e =>
    { c with ll := (key, value) :: c.ll.eraseP (fun e2 => e2.1 == key)
           , nbytes := c.nbytes + (Value.len value : Int) - (Value.len e.2 : Int) }
  | none =>
    { c with ll := (key, value) :: c.ll
           , nbytes := c.nbytes + ((key.length : Int) + (Value.len value : Int)) }

/-- The eviction loop of `Cache.Add`:
`for c.maxBytes != 0 && c.maxBytes < c.nbytes { c.RemoveOldest() }`.
Each productive iteration removes one entry, so `c.ll.length` steps of fuel reach
the loop's fixpoint from every state the Go code can reach (on an already empty
list with the guard still true the Go loop would spin forever; that state is
unreachable because then `nbytes = 0`). -/
def Cache.evictLoop (c : Cache α) : Nat → Cache α
  | 0 => c
  | fuel + 1 =>
    if c.maxBytes ≠ 0 ∧ c.maxBytes < c.nbytes then
      c.removeOldest.evictLoop fuel
    else c

/-- Embedding of `Cache.Add`. -/
def Cache.add (c : Cache α) (key : String) (value : α) : Cache α :=
  let c1 := c.addRaw key value
  c1.evictLoop c1.ll.length

/-- Embedding of `Cache.Len`. -/
def Cache.len (c : Cache α) : Nat := c.ll.length

/-- One public operation on the cache (the claims quantify over `Add`/`Get`
sequences). -/
inductive Op (α : Type) where
  | add (key : String) (value : α)
  | get (key : String)

/-- Apply one operation. -/
def applyOp (c : Cache α) : Op α → Cache α
  | .add k v => c.add k v
  | .get k => (c.get k).2

/-- Apply a sequence of operations. -/
def applyOps (c : Cache α) (ops : List (Op α)) : Cache α :=
  ops.foldl applyOp c

end lru

namespace geecache

/-- Cached byte strings (Go `[]byte`), one `Nat` per byte. -/
abbrev Bytes := List Nat

/-- Embedding of `ByteView`. -/
structure ByteView where
  b : Bytes
deriving DecidableEq

/-- Embedding of `ByteView.Len`. -/
def ByteView.len (v : ByteView) : Nat := v.b.length

/-- Embedding of `cloneBytes`: Go copies into a fresh slice; Lean lists are
values, so the clone is the identity on the modelled bytes. -/
def cloneBytes (b : Bytes) : Bytes := b

/-- Embedding of `ByteView.ByteSlice`. -/
def ByteView.byteSlice (v : ByteView) : Bytes := cloneBytes v.b

instance : lru.Value ByteView := ⟨ByteView.len⟩

end geecache

namespace lru

variable {α : Type} [Value α]

theorem entryBytes_nonneg (e : String × α) : 0 ≤ entryBytes e := by
  unfold entryBytes
  positivity

theorem sumBytes_nil : sumBytes ([] : List (String × α)) = 0 := rfl

theorem sumBytes_cons (e : String × α) (l : List (String × α)) :
    sumBytes (e :: l) = entryBytes e + sumBytes l := by
  simp [sumBytes]

theorem sumBytes_nonneg (l : List (String × α)) : 0 ≤ sumBytes l := by
  induction l with
  | nil => simp [sumBytes_nil]
  | cons e t ih => rw [sumBytes_cons]; have := entryBytes_nonneg e; omega

theorem sumBytes_find_eraseP (l : List (String × α)) (p : String × α → Bool) (e : String × α)
    (h : l.find? p = some e) :
    sumBytes l = entryBytes e + sumBytes (l.eraseP p) := by
  induction l with
  | nil => simp at h
  | cons x t ih =>
    by_cases hx : p x
    · rw [List.find?_cons_of_pos _ hx] at h
      cases h
      rw [List.eraseP_cons_of_pos hx, sumBytes_cons]
    · rw [List.find?_cons_of_neg _ (by simpa using hx)] at h
      rw [List.eraseP_cons_of_neg (by simpa using hx), sumBytes_cons, sumBytes_cons, ih h]
      ring

theorem sumBytes_dropLast (l : List (String × α)) (e : String × α)
    (h : l.getLast? = some e) :
    sumBytes l = sumBytes l.dropLast + entryBytes e := by
  induction l with
  | nil => simp at h
  | cons x t ih =>
    cases t with
    | nil =>
      simp at h
      subst h
      simp [sumBytes_cons, sumBytes_nil]
    | cons y t2 =>
      rw [List.getLast?_cons_cons] at h
      rw [List.dropLast_cons₂, sumBytes_cons, ih h, sumBytes_cons]
      ring

end lru

namespace lru

variable {α : Type} [Value α]

theorem maxBytes_get (c : Cache α) (key : String) :
    (c.get key).2.maxBytes = c.maxBytes := by
  unfold Cache.get
  cases c.ll.find? (fun e => e.1 == key) <;> rfl

theorem maxBytes_addRaw (c : Cache α) (key : String) (value : α) :
    (c.addRaw key value).maxBytes = c.maxBytes := by
  unfold Cache.addRaw
  cases c.ll.find? (fun e => e.1 == key) <;> rfl

theorem maxBytes_removeOldest (c : Cache α) :
    c.removeOldest.maxBytes = c.maxBytes := by
  unfold Cache.removeOldest
  cases c.ll.getLast? <;> rfl

theorem maxBytes_evictLoop (fuel : Nat) (c : Cache α) :
    (c.evictLoop fuel).maxBytes = c.maxBytes := by
  induction fuel generalizing c with
  | zero => rfl
  | succ n ih =>
    unfold Cache.evictLoop
    split
    · rw [ih, maxBytes_removeOldest]
    · rfl

theorem conserv_get (c : Cache α) (key : String)
    (h : c.nbytes = sumBytes c.ll) :
    (c.get key).2.nbytes = sumBytes (c.get key).2.ll := by
  unfold Cache.get
  cases hf : c.ll.find? (fun e => e.1 == key) with
  | none => exact h
  | some e =>
    simp only
    rw [sumBytes_cons, ← sumBytes_find_eraseP c.ll _ e hf]
    exact h

theorem conserv_addRaw (c : Cache α) (key : String) (value : α)
    (h : c.nbytes = sumBytes c.ll) :
    (c.addRaw key value).nbytes = sumBytes (c.addRaw key value).ll := by
  unfold Cache.addRaw
  cases hf : c.ll.find? (fun e => e.1 == key) with
  | none =>
    simp only
    rw [sumBytes_cons, h, entryBytes]
    ring
  | some e =>
    simp only
    have hkey : e.1 = key := by
      have := List.find?_some hf
      simpa using this
    rw [sumBytes_cons, h, sumBytes_find_eraseP c.ll _ e hf, entryBytes, entryBytes, hkey]
    ring

theorem conserv_removeOldest (c : Cache α)
    (h : c.nbytes = sumBytes c.ll) :
    c.removeOldest.nbytes = sumBytes c.removeOldest.ll := by
  unfold Cache.removeOldest
  cases hl : c.ll.getLast? with
  | none => exact h
  | some e =>
    simp only
    rw [h, sumBytes_dropLast c.ll e hl]
    ring

theorem conserv_evictLoop (fuel : Nat) (c : Cache α)
    (h : c.nbytes = sumBytes c.ll) :
    (c.evictLoop fuel).nbytes = sumBytes (c.evictLoop fuel).ll := by
  induction fuel generalizing c with
  | zero => exact h
  | succ n ih =>
    unfold Cache.evictLoop
    split
    · exact ih _ (conserv_removeOldest c h)
    · exact h

theorem budget_evictLoop (fuel : Nat) (c : Cache α)
    (h : c.nbytes = sumBytes c.ll) (hB : 0 < c.maxBytes)
    (hfuel : c.ll.length ≤ fuel) :
    (c.evictLoop fuel).nbytes ≤ c.maxBytes := by
  induction fuel generalizing c with
  | zero =>
    have : c.ll = [] := by
      cases hll : c.ll with
      | nil => rfl
      | cons x t => rw [hll] at hfuel; simp at hfuel
    unfold Cache.evictLoop
    rw [h, this, sumBytes_nil]
    omega
  | succ n ih =>
    unfold Cache.evictLoop
    split
    · rename_i hcond
      cases hll : c.ll with
      | nil =>
        exfalso
        rw [h, hll, sumBytes_nil] at hcond
        omega
      | cons x t =>
        have hlen : c.removeOldest.ll.length ≤ n := by
          unfold Cache.removeOldest
          cases hgl : c.ll.getLast? with
          | none =>
            rw [hll] at hgl
            simp at hgl
          | some e =>
            simp only [List.length_dropLast]
            rw [hll] at hfuel ⊢
            simp at hfuel ⊢
            omega
        have := ih c.removeOldest (conserv_removeOldest c h)
          (by rw [maxBytes_removeOldest]; exact hB) hlen
        rwa [maxBytes_removeOldest] at this
    · rename_i hcond
      push_neg at hcond
      exact hcond (by omega)

end lru

namespace lru

variable {α : Type} [Value α]

theorem maxBytes_add (c : Cache α) (key : String) (value : α) :
    (c.add key value).maxBytes = c.maxBytes := by
  unfold Cache.add
  rw [maxBytes_evictLoop, maxBytes_addRaw]

theorem conserv_add (c : Cache α) (key : String) (value : α)
    (h : c.nbytes = sumBytes c.ll) :
    (c.add key value).nbytes = sumBytes (c.add key value).ll :=
  conserv_evictLoop _ _ (conserv_addRaw c key value h)

/-- The running byte-conservation and budget invariant of the LRU cache. -/
def ByteInv (c : Cache α) : Prop :=
  c.nbytes = sumBytes c.ll ∧ (0 < c.maxBytes → c.nbytes ≤ c.maxBytes)

theorem nbytes_get (c : Cache α) (key : String) :
    (c.get key).2.nbytes = c.nbytes := by
  unfold Cache.get
  cases c.ll.find? (fun e => e.1 == key) <;> rfl

theorem byteInv_get (c : Cache α) (key : String) (h : ByteInv c) :
    ByteInv (c.get key).2 := by
  refine ⟨conserv_get c key h.1, ?_⟩
  rw [maxBytes_get, nbytes_get]
  exact h.2

theorem byteInv_add (c : Cache α) (key : String) (value : α) (h : ByteInv c) :
    ByteInv (c.add key value) := by
  refine ⟨conserv_add c key value h.1, ?_⟩
  rw [maxBytes_add]
  intro hB
  unfold Cache.add
  calc ((c.addRaw key value).evictLoop (c.addRaw key value).ll.length).nbytes
      ≤ (c.addRaw key value).maxBytes :=
        budget_evictLoop _ _ (conserv_addRaw c key value h.1)
          (by rw [maxBytes_addRaw]; exact hB) le_rfl
    _ = c.maxBytes := maxBytes_addRaw c key value

theorem byteInv_applyOps (c : Cache α) (ops : List (Op α)) (h : ByteInv c) :
    ByteInv (applyOps c ops) := by
  induction ops generalizing c with
  | nil => exact h
  | cons op rest ih =>
    cases op with
    | add k v => exact ih _ (byteInv_add c k v h)
    | get k => exact ih _ (byteInv_get c k h)

theorem maxBytes_applyOps (c : Cache α) (ops : List (Op α)) :
    (applyOps c ops).maxBytes = c.maxBytes := by
  induction ops generalizing c with
  | nil => rfl
  | cons op rest ih =>
    cases op with
    | add k v => rw [applyOps, List.foldl_cons, ← applyOps, ih, applyOp, maxBytes_add]
    | get k => rw [applyOps, List.foldl_cons, ← applyOps, ih, applyOp, maxBytes_get]

end lru

namespace lru

variable {α : Type} [Value α]

theorem addRaw_head (c : Cache α) (key : String) (value : α) :
    (c.addRaw key value).ll.head? = some (key, value) := by
  unfold Cache.addRaw
  cases c.ll.find? (fun e => e.1 == key) <;> rfl

theorem removeOldest_head (c : Cache α) :
    c.removeOldest.ll.head? = c.ll.head? ∨ c.removeOldest.ll = [] := by
  unfold Cache.removeOldest
  cases hl : c.ll.getLast? with
  | none => left; rfl
  | some e =>
    simp only
    cases c.ll with
    | nil => right; rfl
    | cons x t =>
      cases t with
      | nil => right; rfl
      | cons y t2 => left; rw [List.dropLast_cons₂]; rfl

theorem evictLoop_head (fuel : Nat) (c : Cache α) :
    (c.evictLoop fuel).ll.head? = c.ll.head? ∨ (c.evictLoop fuel).ll = [] := by
  induction fuel generalizing c with
  | zero => left; rfl
  | succ n ih =>
    unfold Cache.evictLoop
    split
    · rcases ih c.removeOldest with h1 | h1
      · rcases removeOldest_head c with h2 | h2
        · left; rw [h1, h2]
        · right
          rw [h2] at h1
          simpa using h1
      · right; exact h1
    · left; rfl

theorem evictLoop_fixpoint (fuel : Nat) (c : Cache α)
    (h : ¬ (c.maxBytes ≠ 0 ∧ c.maxBytes < c.nbytes)) :
    c.evictLoop fuel = c := by
  cases fuel with
  | zero => rfl
  | succ n =>
    unfold Cache.evictLoop
    split
    · rename_i hc; exact absurd hc h
    · rfl

theorem evictAll (fuel : Nat) (c : Cache α) (k : String) (v : α)
    (h : c.nbytes = sumBytes c.ll) (hB : 0 < c.maxBytes)
    (hhead : c.ll.head? = some (k, v))
    (hbig : c.maxBytes < entryBytes (k, v))
    (hfuel : c.ll.length ≤ fuel) :
    (c.evictLoop fuel).ll = [] ∧ (c.evictLoop fuel).nbytes = 0 ∧
      (k, v) ∈ (c.evictLoop fuel).evicted := by
  induction fuel generalizing c with
  | zero =>
    exfalso
    cases hll : c.ll with
    | nil => rw [hll] at hhead; simp at hhead
    | cons x t => rw [hll] at hfuel; simp at hfuel
  | succ n ih =>
    cases hll : c.ll with
    | nil => rw [hll] at hhead; simp at hhead
    | cons x t =>
      have hx : x = (k, v) := by rw [hll] at hhead; simpa using hhead
      subst hx
      have hcond : c.maxBytes ≠ 0 ∧ c.maxBytes < c.nbytes := by
        constructor
        · omega
        · rw [h, hll, sumBytes_cons]
          have := sumBytes_nonneg t
          omega
      unfold Cache.evictLoop
      rw [if_pos hcond]
      cases t with
      | nil =>
        have hgl : c.ll.getLast? = some (k, v) := by rw [hll]; rfl
        have hro : c.removeOldest = { c with ll := c.ll.dropLast, nbytes := c.nbytes - entryBytes (k, v), evicted := c.evicted ++ [(k, v)] } := by
          unfold Cache.removeOldest
          rw [hgl]
        have hrm : c.removeOldest.ll = [] ∧ c.removeOldest.nbytes = 0 ∧
            (k, v) ∈ c.removeOldest.evicted := by
          rw [hro]
          refine ⟨?_, ?_, ?_⟩
          · simp [hll]
          · simp only
            rw [h, hll, sumBytes_cons, sumBytes_nil]
            ring
          · simp
        rw [evictLoop_fixpoint n c.removeOldest ?_]
        · exact hrm
        · rw [maxBytes_removeOldest, hrm.2.1]
          omega
      | cons y t2 =>
        have hrmll : c.removeOldest.ll = (k, v) :: (y :: t2).dropLast := by
          unfold Cache.removeOldest
          cases hgl : c.ll.getLast? with
          | none => rw [hll] at hgl; simp at hgl
          | some e => simp only; rw [hll, List.dropLast_cons₂]
        refine ih c.removeOldest (conserv_removeOldest c h)
          (by rw [maxBytes_removeOldest]; exact hB) ?_
          (by rw [maxBytes_removeOldest]; exact hbig) ?_
        · rw [hrmll]; rfl
        · rw [hrmll]
          rw [hll] at hfuel
          simp at hfuel ⊢
          omega

end lru

namespace lru

variable {α : Type} [Value α]

theorem removeOldest_ll (c : Cache α) (e : String × α) (h : c.ll.getLast? = some e) :
    c.removeOldest.ll = c.ll.dropLast := by
  unfold Cache.removeOldest
  rw [h]

theorem removeOldest_get_gone (c : Cache α) (e : String × α)
    (hgl : c.ll.getLast? = some e) (hnd : (c.ll.map Prod.fst).Nodup) :
    (c.removeOldest.get e.1).1 = none := by
  have hsplit : c.ll.dropLast ++ [e] = c.ll := List.dropLast_append_getLast? e hgl
  have hkeys : ∀ x ∈ c.ll.dropLast, x.1 ≠ e.1 := by
    intro x hx
    rw [← hsplit, List.map_append, List.nodup_append] at hnd
    have hdisj := hnd.2.2
    intro hcontra
    exact hdisj (List.mem_map_of_mem Prod.fst hx) (by simp [hcontra])
  have hfind : c.removeOldest.ll.find? (fun e2 => e2.1 == e.1) = none := by
    rw [removeOldest_ll c e hgl]
    exact List.find?_eq_none.mpr (fun x hx => by simpa using hkeys x hx)
  unfold Cache.get
  rw [hfind]

end lru

/-- C5: for every byte budget and every sequence of `Add`/`Get` operations starting
from a fresh LRU cache, the byte counter `nbytes` equals the sum of
`len(key) + value.Len()` over the entries present, and when the budget is positive
the counter never exceeds it on exit of a public operation. -/
theorem lru_byte_conservation {α : Type} [lru.Value α] (B : Int) (ops : List (lru.Op α)) :
    (lru.applyOps (lru.Cache.new B) ops).nbytes
        = lru.sumBytes (lru.applyOps (lru.Cache.new B) ops).ll ∧
    (0 < B → (lru.applyOps (lru.Cache.new B) ops).nbytes ≤ B) := by
  have hnew : lru.ByteInv (lru.Cache.new B : lru.Cache α) := by
    constructor
    · rfl
    · intro h
      simp only [lru.Cache.new] at h ⊢
      omega
  have h := lru.byteInv_applyOps (lru.Cache.new B) ops hnew
  have hmax : (lru.applyOps (lru.Cache.new B : lru.Cache α) ops).maxBytes = B :=
    lru.maxBytes_applyOps _ ops
  refine ⟨h.1, fun hB => ?_⟩
  have h2 := h.2 (by rw [hmax]; exact hB)
  rwa [hmax] at h2

/-- Witness for C5 at a concrete operation sequence. -/
theorem lru_byte_conservation_witness :
    (lru.applyOps (lru.Cache.new 3) [lru.Op.add "k" (⟨[0]⟩ : geecache.ByteView),
        lru.Op.get "k"]).nbytes
        = lru.sumBytes (lru.applyOps (lru.Cache.new 3) [lru.Op.add "k" (⟨[0]⟩ : geecache.ByteView),
        lru.Op.get "k"]).ll ∧
    (0 < (3 : Int) → (lru.applyOps (lru.Cache.new 3) [lru.Op.add "k" (⟨[0]⟩ : geecache.ByteView),
        lru.Op.get "k"]).nbytes ≤ 3) :=
  lru_byte_conservation 3 _

/-- C6 counterexample: with budget 1, `Add("k", v)` where `len("k") + v.Len() = 4`
evicts the freshly inserted entry itself, so `"k"` is not at the front of the
recency list (the list is empty), refuting the claim as stated. -/
theorem lru_recency_counterexample :
    ((lru.Cache.new 1 : lru.Cache geecache.ByteView).add "k" ⟨[0, 0, 0]⟩).ll.head?
        ≠ some ("k", ⟨[0, 0, 0]⟩) ∧
    ((lru.Cache.new 1 : lru.Cache geecache.ByteView).add "k" ⟨[0, 0, 0]⟩).ll = [] := by
  decide

/-- C6 amended: after a successful `Get(k)` the entry `k` is at the front of the
recency list; after `Add(k, v)` the entry `k` is at the front unless the budget
eviction loop removed it together with everything else (empty list); and every
`RemoveOldest` removes exactly the back entry from the list, and that entry's key
is no longer found (assuming the keys were distinct, as the Go map guarantees). -/
theorem lru_recency {α : Type} [lru.Value α] (c : lru.Cache α) (k : String) (v : α) :
    (∀ val c2, c.get k = (some val, c2) → c2.ll.head? = some (k, val)) ∧
    ((c.add k v).ll.head? = some (k, v) ∨ (c.add k v).ll = []) ∧
    (∀ e, c.ll.getLast? = some e →
      c.removeOldest.ll = c.ll.dropLast ∧
      ((c.ll.map Prod.fst).Nodup → (c.removeOldest.get e.1).1 = none)) := by
  refine ⟨?_, ?_, ?_⟩
  · intro val c2 hget
    unfold lru.Cache.get at hget
    cases hf : c.ll.find? (fun e => e.1 == k) with
    | none => rw [hf] at hget; simp at hget
    | some e =>
      rw [hf] at hget
      simp only [Prod.mk.injEq, Option.some.injEq] at hget
      have hkey : e.1 = k := by simpa using List.find?_some hf
      rw [← hget.2]
      simp only [List.head?_cons]
      rw [← hget.1, ← hkey]
  · have h1 := lru.addRaw_head c k v
    have h2 := lru.evictLoop_head (c.addRaw k v).ll.length (c.addRaw k v)
    unfold lru.Cache.add
    rcases h2 with h2 | h2
    · left; rw [h2, h1]
    · right; exact h2
  · intro e hgl
    exact ⟨lru.removeOldest_ll c e hgl, fun hnd => lru.removeOldest_get_gone c e hgl hnd⟩

/-- Witness for C6 (amended) at a concrete cache. -/
theorem lru_recency_witness :
    (((lru.Cache.new 16 : lru.Cache geecache.ByteView).add "a" ⟨[1]⟩).add "b" ⟨[2]⟩).removeOldest.ll
        = (((lru.Cache.new 16 : lru.Cache geecache.ByteView).add "a" ⟨[1]⟩).add "b" ⟨[2]⟩).ll.dropLast := by
  have h := lru_recency (((lru.Cache.new 16 : lru.Cache geecache.ByteView).add "a" ⟨[1]⟩).add "b" ⟨[2]⟩) "b" (⟨[2]⟩ : geecache.ByteView)
  exact (h.2.2 ("a", ⟨[1]⟩) (by decide)).1

/-- C10: adding an entry whose own bytes exceed a positive budget drains the whole
cache: the recency list ends empty with counter 0, the new entry itself is among
the evicted (its eviction callback ran), and a `Get` for it misses. -/
theorem lru_oversized_add {α : Type} [lru.Value α] (c : lru.Cache α) (k : String) (v : α)
    (h : c.nbytes = lru.sumBytes c.ll) (hB : 0 < c.maxBytes)
    (hbig : c.maxBytes < (k.length : Int) + (lru.Value.len v : Int)) :
    (c.add k v).ll = [] ∧ (c.add k v).nbytes = 0 ∧
      (k, v) ∈ (c.add k v).evicted ∧ ((c.add k v).get k).1 = none := by
  have hbig' : c.maxBytes < lru.entryBytes (k, v) := by
    rw [lru.entryBytes]; exact hbig
  have hall := lru.evictAll (c.addRaw k v).ll.length (c.addRaw k v) k v
    (lru.conserv_addRaw c k v h)
    (by rw [lru.maxBytes_addRaw]; exact hB)
    (lru.addRaw_head c k v)
    (by rw [lru.maxBytes_addRaw]; exact hbig')
    le_rfl
  refine ⟨hall.1, hall.2.1, hall.2.2, ?_⟩
  unfold lru.Cache.get
  rw [show (c.add k v).ll = [] from hall.1]
  rfl

/-- Witness for C10 at a concrete cache holding one entry. -/
theorem lru_oversized_add_witness :
    (((lru.Cache.new 5 : lru.Cache geecache.ByteView).add "a" ⟨[1]⟩).add "k" ⟨[0, 0, 0, 0, 0]⟩).ll = [] ∧
    (((lru.Cache.new 5 : lru.Cache geecache.ByteView).add "a" ⟨[1]⟩).add "k" ⟨[0, 0, 0, 0, 0]⟩).nbytes = 0 ∧
    ("k", (⟨[0, 0, 0, 0, 0]⟩ : geecache.ByteView))
        ∈ (((lru.Cache.new 5 : lru.Cache geecache.ByteView).add "a" ⟨[1]⟩).add "k" ⟨[0, 0, 0, 0, 0]⟩).evicted ∧
    ((((lru.Cache.new 5 : lru.Cache geecache.ByteView).add "a" ⟨[1]⟩).add "k" ⟨[0, 0, 0, 0, 0]⟩).get "k").1 = none :=
  lru_oversized_add ((lru.Cache.new 5 : lru.Cache geecache.ByteView).add "a" ⟨[1]⟩)
    "k" ⟨[0, 0, 0, 0, 0]⟩ (by decide) (by decide) (by decide)

namespace consistenthash

/-- Association-list model of the Go map `map[int]string` from virtual-node hash
to real node name; an assignment conses a pair, lookup takes the newest binding,
a missing key yields Go's zero value `""`. -/
def mapInsert (m : List (Nat × String)) (h : Nat) (v : String) : List (Nat × String) :=
  (h, v) :: m

/-- Lookup in the modelled `map[int]string` (missing key gives `""`). -/
def mapLookup (m : List (Nat × String)) (h : Nat) : String :=
  match m.find? (fun kv => kv.1 == h) with
  | some kv => kv.2
  | none => ""

/-- Embedding of `delete(m.hashMap, hash)`: remove every binding of the key. -/
def mapErase (m : List (Nat × String)) (h : Nat) : List (Nat × String) :=
  m.filter (fun kv => kv.1 != h)

/-- Embedding of `consistenthash.Map`: the hash function `H : bytes → uint32` is
modelled on strings (its only use sites), `keys` is the sorted ring of
virtual-node hashes, `hashMap` maps virtual hash to real node name. -/
structure Map where
  replicas : Nat
  hash : String → Nat
  keys : List Nat
  hashMap : List (Nat × String)

/-- One iteration of the inner loop of `Map.Add` for virtual node `i` of `key`. -/
def addStep (key : String) (a : Map) (i : Nat) : Map :=
  let h := a.hash (toString i ++ key)
  { a with keys := a.keys ++ [h], hashMap := mapInsert a.hashMap h key }

/-- Embedding of `Map.Add`: append `replicas` virtual-node hashes per real node,
record the mappings, then sort the ring ascending (`sort.Ints`). -/
def Map.add (m : Map) (names : List String) : Map :=
  let m' := names.foldl (fun acc key => (List.range acc.replicas).foldl (addStep key) acc) m
  { m' with keys := List.insertionSort (· ≤ ·) m'.keys }

/-- Embedding of `Map.Get`: empty ring yields `""`; otherwise `sort.Search` finds
the smallest index whose hash is at least `H(key)` (on the sorted ring the binary
search coincides with the first index satisfying the monotone predicate, which is
`List.findIdx`), wraps with `idx % len`, and the virtual node is resolved through
`hashMap`. -/
def Map.get (m : Map) (key : String) : String :=
  if m.keys.length = 0 then ""
  else
    mapLookup m.hashMap
      (m.keys.getD (m.keys.findIdx (fun x => decide (m.hash key ≤ x)) % m.keys.length) 0)

/-- The slice splice `append(m.keys[:idx], m.keys[idx+1:]...)` of `Map.Remove`,
where `idx` is `sort.SearchInts(m.keys, hash)`, i.e. the smallest index with
`keys[idx] ≥ h` (modelled by `List.findIdx` on the sorted ring).  (When the hash
is absent and the search lands past the end, the Go splice would panic; splicing
at the end is modelled as a no-op, a state the roundtrip theorem never reaches.) -/
def spliceAt (ks : List Nat) (h : Nat) : List Nat :=
  ks.take (ks.findIdx (fun x => decide (h ≤ x)))
    ++ ks.drop (ks.findIdx (fun x => decide (h ≤ x)) + 1)

/-- One iteration of `Map.Remove` for virtual node `i` of `key`: splice the
virtual hash out of the ring and delete its `hashMap` binding. -/
def removeStep (key : String) (a : Map) (i : Nat) : Map :=
  { a with keys := spliceAt a.keys (a.hash (toString i ++ key))
         , hashMap := mapErase a.hashMap (a.hash (toString i ++ key)) }

/-- Embedding of `Map.Remove`. -/
def Map.remove (m : Map) (key : String) : Map :=
  (List.range m.replicas).foldl (removeStep key) m

end consistenthash

/-- C7: `Ring.Get` returns `""` on an empty ring; otherwise it returns
`M[K[idx]]` for the smallest index `idx` with `K[idx] ≥ H(key)`, wrapping to
`K[0]` when `H(key)` exceeds every virtual-node hash. -/
theorem ring_get_characterization (m : consistenthash.Map) (key : String) :
    (m.keys = [] → m.get key = "") ∧
    (m.keys ≠ [] → (∀ x ∈ m.keys, x < m.hash key) →
        m.get key = consistenthash.mapLookup m.hashMap (m.keys.headD 0)) ∧
    (∀ i, i < m.keys.length → m.hash key ≤ m.keys.getD i 0 →
        (∀ j, j < i → m.keys.getD j 0 < m.hash key) →
        m.get key = consistenthash.mapLookup m.hashMap (m.keys.getD i 0)) := by
  refine ⟨?_, ?_, ?_⟩
  · intro hnil
    unfold consistenthash.Map.get
    rw [if_pos (by rw [hnil]; rfl)]
  · intro hne hall
    unfold consistenthash.Map.get
    rw [if_neg (by simpa using fun h => hne (List.length_eq_zero.mp h))]
    have hidx : m.keys.findIdx (fun x => decide (m.hash key ≤ x)) = m.keys.length := by
      rw [List.findIdx_eq_length]
      intro x hx
      simpa using hall x hx
    rw [hidx, Nat.mod_self]
    congr 1
    cases hk : m.keys with
    | nil => exact absurd hk hne
    | cons a t => rfl
  · intro i hi hge hlt
    unfold consistenthash.Map.get
    rw [if_neg (by omega)]
    have hidx : m.keys.findIdx (fun x => decide (m.hash key ≤ x)) = i := by
      have hle : m.keys.findIdx (fun x => decide (m.hash key ≤ x)) ≤ i := by
        by_contra hgt
        push_neg at hgt
        have h2 := List.not_of_lt_findIdx hgt
        rw [← List.getD_eq_getElem m.keys 0 (by omega)] at h2
        simp only [decide_eq_false_iff_not, not_le] at h2
        omega
      have hge2 : ¬ m.keys.findIdx (fun x => decide (m.hash key ≤ x)) < i := by
        intro hlt2
        have hfi : m.keys.findIdx (fun x => decide (m.hash key ≤ x)) < m.keys.length := by omega
        have h2 := List.findIdx_getElem (w := hfi)
        rw [← List.getD_eq_getElem m.keys 0 (by omega)] at h2
        simp only [decide_eq_true_eq] at h2
        have h3 := hlt _ hlt2
        omega
      omega
    rw [hidx, Nat.mod_eq_of_lt hi]

namespace consistenthash

theorem addFold (is : List Nat) (a : Map) (key : String) :
    (is.foldl (addStep key) a).keys = a.keys ++ is.map (fun i => a.hash (toString i ++ key)) ∧
    (is.foldl (addStep key) a).hashMap
        = (is.map (fun i => (a.hash (toString i ++ key), key))).reverse ++ a.hashMap ∧
    (is.foldl (addStep key) a).hash = a.hash ∧
    (is.foldl (addStep key) a).replicas = a.replicas := by
  induction is generalizing a with
  | nil => exact ⟨by simp, by simp, rfl, rfl⟩
  | cons i t ih =>
    have h := ih (addStep key a i)
    refine ⟨?_, ?_, h.2.2.1, h.2.2.2⟩
    · rw [List.foldl_cons, h.1]
      simp [addStep, List.append_assoc]
    · rw [List.foldl_cons, h.2.1]
      simp [addStep, mapInsert, List.append_assoc]

theorem removeFold (is : List Nat) (a : Map) (key : String) :
    (is.foldl (removeStep key) a).keys
        = (is.map (fun i => a.hash (toString i ++ key))).foldl spliceAt a.keys ∧
    (is.foldl (removeStep key) a).hashMap
        = (is.map (fun i => a.hash (toString i ++ key))).foldl mapErase a.hashMap ∧
    (is.foldl (removeStep key) a).hash = a.hash ∧
    (is.foldl (removeStep key) a).replicas = a.replicas := by
  induction is generalizing a with
  | nil => exact ⟨rfl, rfl, rfl, rfl⟩
  | cons i t ih =>
    have h := ih (removeStep key a i)
    exact ⟨by rw [List.foldl_cons, h.1]; rfl, by rw [List.foldl_cons, h.2.1]; rfl,
      h.2.2.1, h.2.2.2⟩

theorem splice_sorted_mem (ks : List Nat) (h : Nat)
    (hsort : ks.Sorted (· ≤ ·)) (hmem : h ∈ ks) :
    spliceAt ks h = ks.erase h := by
  induction ks with
  | nil => simp at hmem
  | cons x t ih =>
    by_cases hx : h ≤ x
    · have hxh : x = h := by
        rcases List.mem_cons.mp hmem with h1 | h1
        · omega
        · have := (List.sorted_cons.mp hsort).1 h h1
          omega
      have hstep : spliceAt (x :: t) h = t := by
        unfold spliceAt
        rw [List.findIdx_cons]
        simp only [decide_eq_true hx, cond_true]
        simp
      rw [hstep]
      subst hxh
      rw [List.erase_cons_head]
    · have hmem2 : h ∈ t := by
        rcases List.mem_cons.mp hmem with h1 | h1
        · omega
        · exact h1
      have hstep : spliceAt (x :: t) h = x :: spliceAt t h := by
        unfold spliceAt
        rw [List.findIdx_cons]
        simp only [decide_eq_false hx, cond_false, List.take_succ_cons, List.drop_succ_cons]
        rfl
      rw [hstep, ih (List.sorted_cons.mp hsort).2 hmem2,
        List.erase_cons_tail (by simp only [beq_iff_eq]; omega)]

end consistenthash

namespace consistenthash

theorem fold_splice (hs : List Nat) (ks : List Nat)
    (hsort : ks.Sorted (· ≤ ·)) (hcnt : ∀ x, hs.count x ≤ ks.count x) :
    (hs.foldl spliceAt ks).Sorted (· ≤ ·) ∧
    (∀ x, (hs.foldl spliceAt ks).count x = ks.count x - hs.count x) := by
  induction hs generalizing ks with
  | nil => exact ⟨hsort, fun x => by simp⟩
  | cons h t ih =>
    have hmem : h ∈ ks := by
      have := hcnt h
      rw [List.count_cons_self] at this
      exact List.count_pos_iff.mp (by omega)
    have hsp : spliceAt ks h = ks.erase h := splice_sorted_mem ks h hsort hmem
    have hsort2 : (ks.erase h).Sorted (· ≤ ·) :=
      List.Pairwise.sublist (List.erase_sublist h ks) hsort
    have hcnt2 : ∀ x, t.count x ≤ (ks.erase h).count x := by
      intro x
      by_cases hxh : x = h
      · subst hxh
        rw [List.count_erase_self]
        have := hcnt x
        rw [List.count_cons_self] at this
        omega
      · rw [List.count_erase_of_ne hxh]
        have := hcnt x
        rw [List.count_cons_of_ne hxh] at this
        exact this
    have := ih (ks.erase h) hsort2 hcnt2
    rw [List.foldl_cons, hsp]
    refine ⟨this.1, fun x => ?_⟩
    rw [this.2 x]
    by_cases hxh : x = h
    · subst hxh
      rw [List.count_erase_self, List.count_cons_self]
      omega
    · rw [List.count_erase_of_ne hxh, List.count_cons_of_ne hxh]

theorem foldl_mapErase_filter (hs : List Nat) (mm : List (Nat × String)) :
    hs.foldl mapErase mm = mm.filter (fun kv => decide (kv.1 ∉ hs)) := by
  induction hs generalizing mm with
  | nil => simp
  | cons h t ih =>
    rw [List.foldl_cons, ih (mapErase mm h)]
    unfold mapErase
    rw [List.filter_filter]
    congr 1
    funext kv
    by_cases h1 : kv.1 = h <;> by_cases h2 : kv.1 ∈ t <;> simp [h1, h2]

end consistenthash

/-- C8: `Ring.Get` is a pure function of the ring state (keys, hash map, hash
function), and `Add(p)` followed by `Remove(p)` restores the `Get` behaviour of
every key, provided (modulo hash collisions) no virtual-node hash of `p` already
carries a binding in the ring's hash map, and the ring's key list is sorted (as
every `Add`-built ring is). -/
theorem ring_add_remove_roundtrip (m : consistenthash.Map) (p : String)
    (hsort : m.keys.Sorted (· ≤ ·))
    (hfresh : ∀ i, i < m.replicas → ∀ kv ∈ m.hashMap,
        kv.1 ≠ m.hash (toString i ++ p)) :
    ((m.add [p]).remove p).keys = m.keys ∧
    ((m.add [p]).remove p).hashMap = m.hashMap ∧
    ((m.add [p]).remove p).hash = m.hash ∧
    (∀ key, ((m.add [p]).remove p).get key = m.get key) := by
  have haddFold := consistenthash.addFold (List.range m.replicas) m p
  have hadd : (m.add [p]).keys
        = List.insertionSort (· ≤ ·)
            (m.keys ++ (List.range m.replicas).map (fun i => m.hash (toString i ++ p))) ∧
      (m.add [p]).hashMap
        = ((List.range m.replicas).map (fun i => (m.hash (toString i ++ p), p))).reverse
            ++ m.hashMap ∧
      (m.add [p]).hash = m.hash ∧ (m.add [p]).replicas = m.replicas := by
    unfold consistenthash.Map.add
    simp only [List.foldl_cons, List.foldl_nil]
    exact ⟨by rw [haddFold.1], haddFold.2.1, haddFold.2.2.1, haddFold.2.2.2⟩
  have hremFold := consistenthash.removeFold (List.range (m.add [p]).replicas) (m.add [p]) p
  rw [hadd.2.2.2, hadd.2.2.1] at hremFold
  have hrem : ((m.add [p]).remove p).keys
        = ((List.range m.replicas).map (fun i => m.hash (toString i ++ p))).foldl
            consistenthash.spliceAt (m.add [p]).keys ∧
      ((m.add [p]).remove p).hashMap
        = ((List.range m.replicas).map (fun i => m.hash (toString i ++ p))).foldl
            consistenthash.mapErase (m.add [p]).hashMap ∧
      ((m.add [p]).remove p).hash = m.hash := by
    unfold consistenthash.Map.remove
    rw [hadd.2.2.2]
    exact ⟨hremFold.1, hremFold.2.1, hremFold.2.2.1⟩
  have hsorted2 : (m.add [p]).keys.Sorted (· ≤ ·) := by
    rw [hadd.1]
    exact List.sorted_insertionSort _ _
  have hperm : ((m.add [p]).keys).Perm
      (m.keys ++ (List.range m.replicas).map (fun i => m.hash (toString i ++ p))) := by
    rw [hadd.1]
    exact List.perm_insertionSort _ _
  have hcnt : ∀ x, (((List.range m.replicas).map (fun i => m.hash (toString i ++ p))).count x)
      ≤ (m.add [p]).keys.count x := by
    intro x
    rw [hperm.count_eq x, List.count_append]
    omega
  have hfold := consistenthash.fold_splice _ _ hsorted2 hcnt
  have hkeys : ((m.add [p]).remove p).keys = m.keys := by
    rw [hrem.1]
    refine List.eq_of_perm_of_sorted (List.perm_iff_count.mpr fun x => ?_) hfold.1 hsort
    rw [hfold.2 x, hperm.count_eq x, List.count_append]
    omega
  have hmap : ((m.add [p]).remove p).hashMap = m.hashMap := by
    rw [hrem.2.1, consistenthash.foldl_mapErase_filter, hadd.2.1, List.filter_append]
    have hleft : (((List.range m.replicas).map (fun i => (m.hash (toString i ++ p), p))).reverse).filter
        (fun kv => decide (kv.1 ∉ (List.range m.replicas).map (fun i => m.hash (toString i ++ p)))) = [] := by
      refine List.filter_eq_nil_iff.mpr fun kv hkv => ?_
      rw [List.mem_reverse, List.mem_map] at hkv
      obtain ⟨i, hi, hkvi⟩ := hkv
      simp only [decide_eq_true_eq, Decidable.not_not]
      exact List.mem_map.mpr ⟨i, hi, by rw [← hkvi]⟩
    have hright : (m.hashMap).filter
        (fun kv => decide (kv.1 ∉ (List.range m.replicas).map (fun i => m.hash (toString i ++ p)))) = m.hashMap := by
      refine List.filter_eq_self.mpr fun kv hkv => ?_
      simp only [decide_eq_true_eq]
      intro hcontra
      rw [List.mem_map] at hcontra
      obtain ⟨i, hi, hkvi⟩ := hcontra
      exact hfresh i (List.mem_range.mp hi) kv hkv hkvi.symm
    rw [hleft, hright]
    rfl
  refine ⟨hkeys, hmap, hrem.2.2, fun key => ?_⟩
  unfold consistenthash.Map.get
  rw [hkeys, hmap, hrem.2.2]

/-- A small concrete ring used by the ring witnesses: one virtual node per real
node, the hash is the byte length of the input. -/
def ringEx : consistenthash.Map :=
  { replicas := 1
  , hash := fun s => s.length
  , keys := [2, 5]
  , hashMap := [(2, "a"), (5, "b")] }

/-- Witness for C7 at the concrete ring: the key of hash 3 lands on the virtual
node with hash 5. -/
theorem ring_get_characterization_witness :
    ringEx.get "xxx" = consistenthash.mapLookup ringEx.hashMap (ringEx.keys.getD 1 0) :=
  (ring_get_characterization ringEx "xxx").2.2 1 (by decide) (by decide) (by decide)

/-- Witness for C8 at the concrete ring: adding and removing peer `"bb"` leaves
in particular the lookup of `"xxx"` unchanged. -/
theorem ring_add_remove_roundtrip_witness :
    ((ringEx.add ["bb"]).remove "bb").get "xxx" = ringEx.get "xxx" :=
  (ring_add_remove_roundtrip ringEx "bb" (by decide) (by decide)).2.2.2 "xxx"

namespace geecache

/-- Embedding of the state of `geecache.Group`: the namespace name, the origin
loader callback (`Getter`), the bounded LRU `mainCache`, and the optional peer
picker.  A picker returns, per key, an optional peer client; a peer client is a
function from (group name, key) to bytes or an error.  Errors are their
messages.  The `singleflight.Group` loader only coalesces concurrent duplicate
calls; in this sequential model `Do(key, fn)` on a quiescent group runs `fn`
once and returns its result, so `load` is modelled by the body of the closure
passed to `Do`. -/
structure Group where
  name : String
  getter : String → Except String Bytes
  mainCache : lru.Cache ByteView
  peers : Option (String → Option (String → String → Except String Bytes))

/-- Embedding of `Group.getFromPeer`: ask the peer client for (name, key) and
wrap the bytes in a `ByteView`. -/
def Group.getFromPeer (g : Group)
    (peer : String → String → Except String Bytes) (key : String) :
    Except String ByteView :=
  match peer g.name key with
  | .ok bytes => .ok ⟨bytes⟩
  | .error e => .error e

/-- Embedding of `Group.populateCache`. -/
def Group.populateCache (g : Group) (key : String) (value : ByteView) :
    Group :=
  { g with mainCache := g.mainCache.add key value }

/-- Embedding of `Group.getLocally`: call the user loader; on success wrap a
cloned copy in a `ByteView`, insert it into the cache, and return it; on error
propagate the error unchanged. -/
def Group.getLocally (g : Group) (key : String) :
    Except String ByteView × Group :=
  match g.getter key with
  | .error e => (.error e, g)
  | .ok bytes =>
    (.ok ⟨cloneBytes bytes⟩, Group.populateCache g key ⟨cloneBytes bytes⟩)

/-- Embedding of `Group.load` (the closure passed to `g.loader.Do`): if a peer
picker is registered and picks a remote peer, try the peer; on peer success
return the peer's view as is (the Go code does not insert it into the cache); on
peer error, or with no peer, fall back to `getLocally`. -/
def Group.load (g : Group) (key : String) :
    Except String ByteView × Group :=
  match g.peers with
  | some pick =>
    match pick key with
    | some peer =>
      match Group.getFromPeer g peer key with
      | .ok value => (.ok value, g)
      | .error _ => Group.getLocally g key
    | none => Group.getLocally g key
  | none => Group.getLocally g key

/-- Embedding of `Group.Get`: reject the empty key, return a cache hit (with the
recency move), otherwise delegate to `load`. -/
def Group.get (g : Group) (key : String) :
    Except String ByteView × Group :=
  if key = "" then (.error "key is required", g)
  else
    match g.mainCache.get key with
    | (some v, c2) => (.ok v, { g with mainCache := c2 })
    | (none, _) => Group.load g key

end geecache

/-- A concrete group whose peer picker always yields a peer returning bytes
`[6,3,0]`, and whose local loader always fails. -/
def gEx1 : geecache.Group :=
  { name := "scores"
  , getter := fun _ => .error "db down"
  , mainCache := lru.Cache.new 1024
  , peers := some (fun _ => some (fun _ _ => .ok [6, 3, 0])) }

/-- C1 counterexample: a load that succeeds from the remote peer returns the
peer's bytes, but the key is NOT present in the Group's cache when `load`
returns — `getFromPeer` never calls `populateCache`, refuting the claim. -/
theorem load_peer_populate_counterexample :
    (geecache.Group.load gEx1 "Tom").1 = .ok ⟨[6, 3, 0]⟩ ∧
    ((geecache.Group.load gEx1 "Tom").2.mainCache.get "Tom").1 = none := by
  constructor <;> rfl

/-- C1 amended: when the picker yields a remote peer and `peer.Get(name, key)`
succeeds, `load` wraps the bytes in a `ByteView` and returns them, leaving the
whole Group state — in particular the local LRU — unchanged; only the
local-loader path (`getLocally`) populates the cache. -/
theorem load_peer_success (g : geecache.Group) (key : String)
    (pick : String → Option (String → String → Except String geecache.Bytes))
    (peer : String → String → Except String geecache.Bytes) (bs : geecache.Bytes)
    (hp : g.peers = some pick) (hpick : pick key = some peer)
    (hok : peer g.name key = .ok bs) :
    geecache.Group.load g key = (.ok ⟨bs⟩, g) := by
  have hfp : geecache.Group.getFromPeer g peer key = .ok ⟨bs⟩ := by
    unfold geecache.Group.getFromPeer
    rw [hok]
  unfold geecache.Group.load
  rw [hp]
  dsimp only
  rw [hpick]
  dsimp only
  rw [hfp]

/-- Witness for C1 (amended) at the concrete group. -/
theorem load_peer_success_witness :
    geecache.Group.load gEx1 "Tom" = (.ok ⟨[6, 3, 0]⟩, gEx1) :=
  load_peer_success gEx1 "Tom" (fun _ => some (fun _ _ => .ok [6, 3, 0]))
    (fun _ _ => .ok [6, 3, 0]) [6, 3, 0] rfl rfl rfl

/-- C2: any non-nil error from the peer client inside `load` is swallowed — the
load becomes exactly a `getLocally` call — while any error that `load` does
return is the local loader's error, propagated unchanged, with the Group state
(hence the LRU) untouched: the cache never stores an error. -/
theorem load_error_semantics (g : geecache.Group) (key : String) :
    (∀ pick peer pe, g.peers = some pick → pick key = some peer →
        peer g.name key = .error pe →
        geecache.Group.load g key = geecache.Group.getLocally g key) ∧
    (∀ e, (geecache.Group.load g key).1 = .error e →
        g.getter key = .error e ∧ (geecache.Group.load g key).2 = g) := by
  have hloc : ∀ e, (geecache.Group.getLocally g key).1 = .error e →
      g.getter key = .error e ∧ (geecache.Group.getLocally g key).2 = g := by
    intro e he
    unfold geecache.Group.getLocally at he ⊢
    cases hg : g.getter key with
    | error e2 =>
      rw [hg] at he
      dsimp only at he ⊢
      simp only [Except.error.injEq] at he
      subst he
      exact ⟨rfl, rfl⟩
    | ok bs =>
      rw [hg] at he
      dsimp only at he
      simp at he
  constructor
  · intro pick peer pe hp hpick hpe
    have hfp : geecache.Group.getFromPeer g peer key = .error pe := by
      unfold geecache.Group.getFromPeer
      rw [hpe]
    unfold geecache.Group.load
    rw [hp]
    dsimp only
    rw [hpick]
    dsimp only
    rw [hfp]
  · intro e he
    unfold geecache.Group.load at he ⊢
    cases hp : g.peers with
    | none =>
      rw [hp] at he
      dsimp only at he ⊢
      exact hloc e he
    | some pick =>
      rw [hp] at he
      dsimp only at he ⊢
      cases hpick : pick key with
      | none =>
        rw [hpick] at he
        dsimp only at he ⊢
        exact hloc e he
      | some peer =>
        rw [hpick] at he
        dsimp only at he ⊢
        cases hpe : geecache.Group.getFromPeer g peer key with
        | ok v =>
          rw [hpe] at he
          dsimp only at he
          simp at he
        | error pe =>
          rw [hpe] at he
          dsimp only at he ⊢
          exact hloc e he

/-- A concrete group whose peer always fails and whose local loader returns
bytes `[5,8,9]`. -/
def gEx2 : geecache.Group :=
  { name := "scores"
  , getter := fun _ => .ok [5, 8, 9]
  , mainCache := lru.Cache.new 1024
  , peers := some (fun _ => some (fun _ _ => .error "peer down")) }

/-- Witness for C2 at the concrete group: the peer error is swallowed and the
load is exactly the local fallback. -/
theorem load_error_semantics_witness :
    geecache.Group.load gEx2 "Jack" = geecache.Group.getLocally gEx2 "Jack" :=
  (load_error_semantics gEx2 "Jack").1 (fun _ => some (fun _ _ => .error "peer down"))
    (fun _ _ => .error "peer down") "peer down" rfl rfl rfl

namespace geecache

/-- Embedding of `HTTPPool`: own address `self`, URL prefix `basePath`, the
consistent-hash ring `peers`, and the peer-address → client table (a client
handle is identified by its `baseURL`). -/
structure HTTPPool where
  self : String
  basePath : String
  peers : consistenthash.Map
  httpGetters : List (String × String)

/-- Embedding of `HTTPPool.PickPeer`: query the ring; when it answers a
non-empty peer that is not `self`, return that peer's client handle and `true`,
otherwise `(nil, false)`. -/
def HTTPPool.pickPeer (p : HTTPPool) (key : String) : Option String × Bool :=
  if p.peers.get key ≠ "" ∧ p.peers.get key ≠ p.self then
    (match p.httpGetters.find? (fun kv => kv.1 == p.peers.get key) with
     | some kv => some kv.2
     | none => none, true)
  else (none, false)

/-- The observable outcome of one `ServeHTTP` call. -/
inductive ServeOutcome where
  | panicked (msg : String)
  | badRequest
  | nilGroupDeref
  | internalError (msg : String)
  | ok (body : Bytes)
deriving DecidableEq

/-- Helper for `strings.SplitN(s, "/", 2)`: scan for the first `'/'`,
accumulating the first segment (in reverse). -/
def splitN2Chars : List Char → List Char → List String
  | [], acc => [String.mk acc.reverse]
  | c :: rest, acc =>
    if c = '/' then [String.mk acc.reverse, String.mk rest]
    else splitN2Chars rest (c :: acc)

/-- The Go `strings.SplitN(s, "/", 2)`: at most two parts, the second keeps any
further separators. -/
def splitN2 (s : String) : List String :=
  splitN2Chars s.data []

/-- Embedding of `HTTPPool.ServeHTTP` against a registry of groups: panic when
the path lacks `basePath`; 400 when the remainder does not split into
`<group>/<key>`; when the group name is not registered, `http.Error(w, …, 404)`
is written but the Go code is missing a `return`, so control falls through to
`group.Get` on a nil `*Group`, a nil-pointer dereference (`ServeOutcome.nilGroupDeref`);
otherwise serve `group.Get(key)` as 500 on error or 200 with the view's bytes. -/
def serveHTTP (groups : List (String × Group)) (p : HTTPPool) (path : String) :
    ServeOutcome :=
  if ¬ p.basePath.data.isPrefixOf path.data then
    .panicked ("HTTPPool serving unexpected path: " ++ path)
  else
    match splitN2 (String.mk (path.data.drop p.basePath.length)) with
    | [groupName, key] =>
      match groups.find? (fun kv => kv.1 == groupName) with
      | none => .nilGroupDeref
      | some (_, g) =>
        match (Group.get g key).1 with
        | .error e => .internalError e
        | .ok v => .ok v.byteSlice
    | _ => .badRequest

end geecache

/-- C9: `PickPeer` returns `(nil, false)` when the ring owner of the key is the
pool's own address, and when the ring is empty; it answers `true` only when the
ring yields a non-empty owner different from `self`. -/
theorem pickPeer_self_exclusion (p : geecache.HTTPPool) (key : String) :
    (p.peers.get key = p.self → p.pickPeer key = (none, false)) ∧
    (p.peers.keys = [] → p.pickPeer key = (none, false)) ∧
    ((p.pickPeer key).2 = true →
      p.peers.get key ≠ "" ∧ p.peers.get key ≠ p.self) := by
  refine ⟨?_, ?_, ?_⟩
  · intro hself
    unfold geecache.HTTPPool.pickPeer
    rw [if_neg]
    intro hcond
    exact hcond.2 hself
  · intro hempty
    have hget : p.peers.get key = "" := by
      unfold consistenthash.Map.get
      rw [if_pos (by rw [hempty]; rfl)]
    unfold geecache.HTTPPool.pickPeer
    rw [if_neg]
    intro hcond
    exact hcond.1 hget
  · intro htrue
    unfold geecache.HTTPPool.pickPeer at htrue
    by_cases hcond : p.peers.get key ≠ "" ∧ p.peers.get key ≠ p.self
    · exact hcond
    · rw [if_neg hcond] at htrue
      simp at htrue

/-- Witness for C9: a pool that owns the key itself picks no peer. -/
theorem pickPeer_self_exclusion_witness :
    geecache.HTTPPool.pickPeer
      { self := "a", basePath := "/_geecache/", peers := ringEx, httpGetters := [] } "xx"
      = (none, false) :=
  (pickPeer_self_exclusion
      { self := "a", basePath := "/_geecache/", peers := ringEx, httpGetters := [] } "xx").1
    (by decide)

/-- C4 evidence: with an empty registry, a well-formed peer URL whose namespace
is unknown does not stop at the 404 — the missing `return` after
`http.Error(w, "No such group: …", 404)` lets control fall through to
`group.Get` on the nil group, modelled as `ServeOutcome.nilGroupDeref`. -/
theorem serveHTTP_unknown_group_falls_through :
    geecache.serveHTTP []
      { self := "http://localhost:8001", basePath := "/_geecache/"
      , peers := ringEx, httpGetters := [] }
      "/_geecache/scores/Tom" = geecache.ServeOutcome.nilGroupDeref := by
  decide

namespace singleflight

/-- How the `fn` passed to `Do` finishes: a Go `(interface{}, error)` pair, or a
panic unwinding the stack. -/
inductive FnOutcome (α : Type) where
  | ok (val : α) (err : Option String)
  | panicked
deriving DecidableEq

/-- What one `Do` call is observed to do. -/
inductive DoOutcome (α : Type) where
  | returned (val : α) (err : Option String)
  | blocked
  | panicked
deriving DecidableEq

/-- Embedding of `singleflight.Group.Do` acting on `g.m`, modelled as the list
of keys whose `call` handle sits in the map.  A handle still in the map at rest
is one whose `WaitGroup` was never released (the normal path deletes its entry
before returning), so a second caller that finds the key waits on a latch that
will never open: `DoOutcome.blocked`.  On a fresh key the body runs `fn`; the Go
code records the result, calls `c.wg.Done()` and deletes the entry — with no
`defer`, so when `fn` panics the unwind skips both `Done` and `delete` and the
entry stays in the map. -/
def Do {α : Type} (m : List String) (key : String) (fn : Unit → FnOutcome α) :
    DoOutcome α × List String :=
  if key ∈ m then (.blocked, m)
  else
    match fn () with
    | .ok v e => (.returned v e, m)
    | .panicked => (.panicked, key :: m)

end singleflight

/-- C3 evidence: when the thunk panics, `Do` has no deferred cleanup, so the
in-flight entry for the key is left in the map (the claim says it is removed),
and a later `Do` on the same key does not start a fresh execution — it waits
forever on the dead handle's latch. -/
theorem singleflight_panic_no_cleanup :
    (singleflight.Do ([] : List String) "k"
        (fun _ => (.panicked : singleflight.FnOutcome Nat))).2 = ["k"] ∧
    (singleflight.Do ["k"] "k"
        (fun _ => (.ok 1 none : singleflight.FnOutcome Nat))).1
      = singleflight.DoOutcome.blocked := by
  decide
